import Mathlib

/-!
Verification of the popsborder border-inspection simulation core.

The development shallowly embeds the probabilistic engine of the
popsborder simulator: the dynamic skip-lot release-program state machine,
the naive cut flower release program, the hypergeometric (Fosgate) sample
size computation, the contamination engine (box-unit contamination,
consignment rules, clustered arrangement), and the inspection marking of
items.  Randomness is made explicit: every random draw is a parameter of
the embedded function (a rational uniform draw, or a sampler function),
so that each operation is a pure function of its inputs.
-/

/-! ## Consignments -/

/-- Modelled from the spec: a consignment is an ordered sequence of
`numBoxes` boxes, each holding `itemsPerBox` items, with categorical
attributes commodity, origin, port and an ordinal date.  The item with
global index `i` sits in box `i / itemsPerBox`. -/
structure Consignment where
  commodity : String
  origin : String
  port : String
  date : ℕ
  numBoxes : ℕ
  itemsPerBox : ℕ
deriving DecidableEq

/-- Total number of items in a consignment. -/
def Consignment.numItems (c : Consignment) : ℕ := c.numBoxes * c.itemsPerBox

/-! ## Dynamic skip lot release program -/

/-- Decision of a release program for one consignment. -/
inductive ProgramDecision where
  | inspect
  | release
deriving DecidableEq

/-- Modelled from the spec: configuration of the dynamic skip lot
program (the `skip_lot` release program is not shipped under `src/`;
only its documentation is).  `samplingFractions` lists the sampling
fraction of each compliance level, in order from the first level to the
last; `startLevel` is one-based. -/
structure SkipLotConfig where
  samplingFractions : List ℚ
  clearanceNumber : ℕ
  startLevel : ℕ
  quickRestating : Bool
  quickRestateClearanceNumber : Option ℕ
deriving DecidableEq

/-- Number of compliance levels. -/
def SkipLotConfig.numLevels (cfg : SkipLotConfig) : ℕ :=
  cfg.samplingFractions.length

/-- Modelled from the spec: quick restating is enabled by the
`quick_restating` flag, and also automatically whenever
`quick_restate_clearance_number` is provided. -/
def SkipLotConfig.quickRestateEnabled (cfg : SkipLotConfig) : Bool :=
  cfg.quickRestating || cfg.quickRestateClearanceNumber.isSome

/-- Modelled from the spec: per-group state of the dynamic skip lot
state machine.  `levelIndex` is one-based. -/
structure SkipLotGroupState where
  levelIndex : ℕ
  consecutiveSuccesses : ℕ
  hasEverReachedTop : Bool
deriving DecidableEq

/-- Initial state of a group: the configured start level, no recorded
successes, never promoted to the top level. -/
def SkipLotConfig.initialState (cfg : SkipLotConfig) : SkipLotGroupState :=
  ⟨cfg.startLevel, 0, false⟩

/-- Modelled from the spec: the clearance number in effect for a group.
While a group is being restated (it has reached the top level before and
quick restating is enabled), the quick restate clearance number, when
provided, replaces the default clearance number. -/
def SkipLotConfig.effectiveClearance (cfg : SkipLotConfig) (s : SkipLotGroupState) : ℕ :=
  if cfg.quickRestateEnabled && s.hasEverReachedTop then
    cfg.quickRestateClearanceNumber.getD cfg.clearanceNumber
  else cfg.clearanceNumber

/-- Modelled from the spec: state update after an inspected consignment
PASSES.  The success counter is incremented; when it reaches the
clearance number in effect and the group is below the top level, the
group is promoted one level, the counter is reset, and the
has-ever-reached-top flag records whether the new level is the top. -/
def SkipLotConfig.passStep (cfg : SkipLotConfig) (s : SkipLotGroupState) : SkipLotGroupState :=
  if cfg.effectiveClearance s ≤ s.consecutiveSuccesses + 1 ∧ s.levelIndex < cfg.numLevels then
    ⟨s.levelIndex + 1, 0, s.hasEverReachedTop || (s.levelIndex + 1 == cfg.numLevels)⟩
  else
    ⟨s.levelIndex, s.consecutiveSuccesses + 1, s.hasEverReachedTop⟩

/-- Modelled from the spec: state update after an inspected consignment
FAILS.  The group moves back to the start level, unless quick restating
is enabled and the group has reached the top level before, in which case
it moves to the level just below the top; the success counter resets. -/
def SkipLotConfig.failStep (cfg : SkipLotConfig) (s : SkipLotGroupState) : SkipLotGroupState :=
  if cfg.quickRestateEnabled && s.hasEverReachedTop then
    ⟨cfg.numLevels - 1, 0, s.hasEverReachedTop⟩
  else
    ⟨cfg.startLevel, 0, s.hasEverReachedTop⟩

/-- Sampling fraction of the group's current level (one-based index). -/
def SkipLotConfig.currentFraction (cfg : SkipLotConfig) (s : SkipLotGroupState) : ℚ :=
  cfg.samplingFractions.getD (s.levelIndex - 1) 0

/-- Modelled from the spec: evaluation of one consignment by the dynamic
skip lot program.  `u` is the uniform draw in `[0,1)` realising the
Bernoulli draw with the current level's sampling fraction; `passes`
tells whether the inspection, if performed, passes.  When the Bernoulli
draw fails, the consignment is released and the state is untouched;
otherwise the consignment is inspected and the pass/fail transition is
applied. -/
def SkipLotConfig.evaluateConsignment (cfg : SkipLotConfig) (s : SkipLotGroupState)
    (u : ℚ) (passes : Bool) : ProgramDecision × SkipLotGroupState :=
  if u < cfg.currentFraction s then
    (ProgramDecision.inspect, if passes then cfg.passStep s else cfg.failStep s)
  else
    (ProgramDecision.release, s)

/-! ## Dynamic skip lot: theorems -/

/-- Within one level: starting from a below-top state with a fresh
success counter, `k` passing inspections with `k` below the clearance
number only advance the success counter. -/
theorem SkipLotConfig.passStep_iterate_lt (cfg : SkipLotConfig) (l : ℕ) :
    ∀ k, k < cfg.clearanceNumber →
      (cfg.passStep)^[k] ⟨l, 0, false⟩ = ⟨l, k, false⟩ := by
  intro k
  induction k with
  | zero => intro _; rfl
  | succ k ih =>
    intro hk
    rw [Function.iterate_succ_apply', ih (by omega)]
    have hcond : ¬ (cfg.effectiveClearance ⟨l, k, false⟩ ≤ k + 1
        ∧ l < cfg.numLevels) := by
      intro hand
      have h1 := hand.1
      simp [SkipLotConfig.effectiveClearance] at h1
      omega
    simp [SkipLotConfig.passStep, hcond]

/-- One full clearance cycle: starting from a below-top state with a
fresh success counter, exactly `clearanceNumber` passing inspections
promote the group one level and reset the counter; the top flag records
whether the new level is the top. -/
theorem SkipLotConfig.passStep_iterate_clearance (cfg : SkipLotConfig)
    (hc : 0 < cfg.clearanceNumber) (l : ℕ) (hl : l < cfg.numLevels) :
    (cfg.passStep)^[cfg.clearanceNumber] ⟨l, 0, false⟩ =
      ⟨l + 1, 0, l + 1 == cfg.numLevels⟩ := by
  obtain ⟨k, hk⟩ : ∃ k, cfg.clearanceNumber = k + 1 := ⟨cfg.clearanceNumber - 1, by omega⟩
  rw [hk, Function.iterate_succ_apply',
    cfg.passStep_iterate_lt l k (by omega)]
  have hcond : cfg.effectiveClearance ⟨l, k, false⟩ ≤ k + 1 ∧ l < cfg.numLevels := by
    constructor
    · simp [SkipLotConfig.effectiveClearance]
      omega
    · exact hl
  simp [SkipLotConfig.passStep, hcond]

/-- Climbing whole levels: from the initial state at start level 1,
`clearanceNumber * m` passing inspections land the group at level
`1 + m`, with the top flag still unset while `1 + m` is below the top. -/
theorem SkipLotConfig.passStep_iterate_levels (cfg : SkipLotConfig)
    (hc : 0 < cfg.clearanceNumber) (hstart : cfg.startLevel = 1) :
    ∀ m, m + 2 ≤ cfg.numLevels →
      (cfg.passStep)^[cfg.clearanceNumber * m] cfg.initialState = ⟨1 + m, 0, false⟩ := by
  intro m
  induction m with
  | zero => intro _; simp [SkipLotConfig.initialState, hstart]
  | succ m ih =>
    intro hm
    have hsplit : cfg.clearanceNumber * (m + 1)
        = cfg.clearanceNumber + cfg.clearanceNumber * m := by ring
    rw [hsplit, Function.iterate_add_apply, ih (by omega),
      cfg.passStep_iterate_clearance hc (1 + m) (by omega)]
    have hne : (1 + m + 1 == cfg.numLevels) = false := by
      simp only [beq_eq_false_iff_ne, ne_eq]
      omega
    rw [hne]
    congr 1

/-- C2: for the dynamic skip-lot state machine with L levels and
clearance number c, a group starting at level 1 whose every inspected
consignment passes reaches level L after exactly c * (L - 1) inspected
consignments (and is below L strictly before); promotion happens exactly
when the success counter reaches the clearance number at a level below
L, resetting the counter and updating the has-ever-reached-top flag; and
one inspection FAIL with quick restating enabled at a state that has
reached the top moves the group to level L - 1. -/
theorem dynamic_skiplot_climb_and_restate (cfg : SkipLotConfig)
    (hc : 0 < cfg.clearanceNumber) (hL : 2 ≤ cfg.numLevels)
    (hstart : cfg.startLevel = 1) :
    ((cfg.passStep)^[cfg.clearanceNumber * (cfg.numLevels - 1)] cfg.initialState
        = ⟨cfg.numLevels, 0, true⟩
      ∧ ∀ j, j < cfg.clearanceNumber * (cfg.numLevels - 1) →
          ((cfg.passStep)^[j] cfg.initialState).levelIndex < cfg.numLevels)
    ∧ (∀ s : SkipLotGroupState, s.hasEverReachedTop = false →
        cfg.passStep s =
          if cfg.clearanceNumber ≤ s.consecutiveSuccesses + 1
              ∧ s.levelIndex < cfg.numLevels
          then ⟨s.levelIndex + 1, 0, decide (s.levelIndex + 1 = cfg.numLevels)⟩
          else ⟨s.levelIndex, s.consecutiveSuccesses + 1, false⟩)
    ∧ (∀ s : SkipLotGroupState, cfg.quickRestateEnabled = true →
        s.hasEverReachedTop = true →
        (cfg.failStep s).levelIndex = cfg.numLevels - 1) := by
  refine ⟨⟨?_, ?_⟩, ?_, ?_⟩
  · have h1 : cfg.clearanceNumber * (cfg.numLevels - 1)
        = cfg.clearanceNumber + cfg.clearanceNumber * (cfg.numLevels - 2) := by
      have h2 : cfg.numLevels - 1 = (cfg.numLevels - 2) + 1 := by omega
      rw [h2]; ring
    rw [h1, Function.iterate_add_apply,
      cfg.passStep_iterate_levels hc hstart (cfg.numLevels - 2) (by omega),
      cfg.passStep_iterate_clearance hc (1 + (cfg.numLevels - 2)) (by omega)]
    have h3 : 1 + (cfg.numLevels - 2) + 1 = cfg.numLevels := by omega
    rw [h3]
    simp
  · intro j hj
    have hdm := Nat.div_add_mod j cfg.clearanceNumber
    have hmlt : j / cfg.clearanceNumber < cfg.numLevels - 1 := by
      rw [Nat.div_lt_iff_lt_mul hc, Nat.mul_comm]
      exact hj
    have hsplit : j = j % cfg.clearanceNumber
        + cfg.clearanceNumber * (j / cfg.clearanceNumber) := by omega
    rw [hsplit, Function.iterate_add_apply,
      cfg.passStep_iterate_levels hc hstart _ (by omega),
      cfg.passStep_iterate_lt _ _ (Nat.mod_lt j hc)]
    simp only []
    omega
  · intro s htop
    have heff : cfg.effectiveClearance s = cfg.clearanceNumber := by
      simp [SkipLotConfig.effectiveClearance, htop]
    unfold SkipLotConfig.passStep
    rw [heff, htop]
    by_cases hcond : cfg.clearanceNumber ≤ s.consecutiveSuccesses + 1
        ∧ s.levelIndex < cfg.numLevels
    · simp only [if_pos hcond, Bool.false_or]
      by_cases h : s.levelIndex + 1 = cfg.numLevels <;> simp [h]
    · simp [if_neg hcond]
  · intro s hq htop
    simp [SkipLotConfig.failStep, hq, htop]

/-- Witness for C2 at a concrete configuration with three levels and
clearance number two: four passing inspections reach the top level. -/
theorem dynamic_skiplot_climb_witness :
    ((⟨[1, 1/2, 1/4], 2, 1, true, none⟩ : SkipLotConfig).passStep)^[4]
        (⟨[1, 1/2, 1/4], 2, 1, true, none⟩ : SkipLotConfig).initialState
      = ⟨3, 0, true⟩ := by
  have h := dynamic_skiplot_climb_and_restate ⟨[1, 1/2, 1/4], 2, 1, true, none⟩
    (by decide) (by decide) rfl
  simpa using h.1.1

/-- C8: if the Bernoulli draw of the dynamic skip-lot program releases
the consignment (no inspection), the group's state is unchanged: the
success counter, the level index and the has-ever-reached-top flag all
keep their values. -/
theorem skiplot_release_leaves_state_unchanged (cfg : SkipLotConfig)
    (s : SkipLotGroupState) (u : ℚ) (passes : Bool)
    (h : (cfg.evaluateConsignment s u passes).1 = ProgramDecision.release) :
    (cfg.evaluateConsignment s u passes).2.consecutiveSuccesses = s.consecutiveSuccesses
    ∧ (cfg.evaluateConsignment s u passes).2.levelIndex = s.levelIndex
    ∧ (cfg.evaluateConsignment s u passes).2.hasEverReachedTop = s.hasEverReachedTop := by
  unfold SkipLotConfig.evaluateConsignment at h ⊢
  by_cases hu : u < cfg.currentFraction s
  · simp [hu] at h
  · simp [hu]

/-- Witness for C8: with a sampling fraction of one half and a draw of
three quarters, the consignment is released and the state is kept. -/
theorem skiplot_release_frame_witness :
    ((⟨[1/2], 7, 1, false, none⟩ : SkipLotConfig).evaluateConsignment
        ⟨1, 5, false⟩ (3/4) true).2.consecutiveSuccesses = 5 :=
  (skiplot_release_leaves_state_unchanged ⟨[1/2], 7, 1, false, none⟩
    ⟨1, 5, false⟩ (3/4) true (by
      unfold SkipLotConfig.evaluateConsignment SkipLotConfig.currentFraction
      norm_num)).1

/-- C10: providing a quick restate clearance number enables quick
restating even when the `quick_restating` flag is not set: the fail
transition of a group that has reached the top moves it to the level
just below the top, and the quick restate clearance number is the one in
effect for restating. -/
theorem quick_restate_enabled_by_clearance_number (cfg : SkipLotConfig)
    (s : SkipLotGroupState) (hq : cfg.quickRestateClearanceNumber.isSome = true)
    (htop : s.hasEverReachedTop = true) :
    cfg.quickRestateEnabled = true
    ∧ cfg.failStep s = ⟨cfg.numLevels - 1, 0, true⟩
    ∧ cfg.effectiveClearance s
        = cfg.quickRestateClearanceNumber.getD cfg.clearanceNumber := by
  have henabled : cfg.quickRestateEnabled = true := by
    simp [SkipLotConfig.quickRestateEnabled, hq]
  refine ⟨henabled, ?_, ?_⟩
  · simp [SkipLotConfig.failStep, henabled, htop]
  · simp [SkipLotConfig.effectiveClearance, henabled, htop]

/-- Witness for C10 at a configuration whose `quickRestating` flag is
false but whose quick restate clearance number is provided: the fail
transition still quick-restates to the level below the top. -/
theorem quick_restate_witness :
    (⟨[1, 1/2, 1/4], 10, 1, false, some 5⟩ : SkipLotConfig).failStep ⟨3, 0, true⟩
      = ⟨2, 0, true⟩ :=
  (quick_restate_enabled_by_clearance_number ⟨[1, 1/2, 1/4], 10, 1, false, some 5⟩
    ⟨3, 0, true⟩ (by decide) rfl).2.1

/-! ## Hypergeometric (Fosgate) sample size -/

/-- Least-index search: `searchLeast p fuel start` walks `start`,
`start+1`, ... and returns the first index satisfying `p`, or
`start + fuel` when none of the `fuel` inspected indices satisfies
`p`. -/
def searchLeast (p : ℕ → Bool) : ℕ → ℕ → ℕ
  | 0, start => start
  | fuel + 1, start => if p start then start else searchLeast p fuel (start + 1)

/-- Characterisation of `searchLeast`: the result is in
`[start, start + fuel]`, every inspected index before it fails `p`, and
the result satisfies `p` unless the search was exhausted. -/
theorem searchLeast_spec (p : ℕ → Bool) :
    ∀ fuel start,
      (∀ j, start ≤ j → j < searchLeast p fuel start → p j = false)
      ∧ start ≤ searchLeast p fuel start
      ∧ searchLeast p fuel start ≤ start + fuel
      ∧ (searchLeast p fuel start < start + fuel → p (searchLeast p fuel start) = true) := by
  intro fuel
  induction fuel with
  | zero =>
    intro start
    simp only [searchLeast]
    exact ⟨fun j h1 h2 => by omega, le_rfl, by omega, by omega⟩
  | succ fuel ih =>
    intro start
    by_cases hp : p start = true
    · have heq : searchLeast p (fuel + 1) start = start := by
        simp [searchLeast, hp]
      rw [heq]
      exact ⟨fun j h1 h2 => by omega, le_rfl, by omega, fun _ => hp⟩
    · obtain ⟨ih1, ih2, ih3, ih4⟩ := ih (start + 1)
      have heq : searchLeast p (fuel + 1) start = searchLeast p fuel (start + 1) := by
        simp [searchLeast, hp]
      rw [heq]
      refine ⟨?_, by omega, by omega, fun h => ih4 (by omega)⟩
      intro j h1 h2
      rcases Nat.eq_or_lt_of_le h1 with h | h
      · subst h; exact Bool.not_eq_true _ ▸ (Bool.eq_false_iff.mpr hp)
      · exact ih1 j h h2

/-- A search from zero returns exactly the least index satisfying the
predicate, provided one exists within the fuel. -/
theorem searchLeast_eq (p : ℕ → Bool) (fuel n0 : ℕ) (hn0 : n0 ≤ fuel)
    (ht : p n0 = true) (hf : ∀ m, m < n0 → p m = false) :
    searchLeast p fuel 0 = n0 := by
  obtain ⟨h1, _, h3, h4⟩ := searchLeast_spec p fuel 0
  set r := searchLeast p fuel 0 with hr
  have hrle : r ≤ n0 := by
    by_contra hcon
    have hnf := h1 n0 (Nat.zero_le _) (by omega)
    rw [ht] at hnf
    exact Bool.noConfusion hnf
  have hnle : n0 ≤ r := by
    by_contra hcon
    have hrf := hf r (by omega)
    have hrt := h4 (by omega)
    rw [hrt] at hrf
    exact Bool.noConfusion hrf
  omega

/-- Rational test deciding whether a candidate sample size `n` already
meets the Fosgate requirement: `n` is at least the real number
`(1 - alpha^(1/kD)) * m` exactly when `(max 0 (1 - n/m))^kD ≤ alpha`
(raising both sides of `1 - n/m ≤ alpha^(1/kD)` to the `kD`-th power);
this reformulation avoids real exponentiation and is decidable. -/
def fosgatePred (alpha : ℚ) (kD : ℕ) (m : ℚ) (n : ℕ) : Bool :=
  decide ((max 0 (1 - (n : ℚ) / m)) ^ kD ≤ alpha)

/-- The Fosgate requirement is upward closed in the candidate size. -/
theorem fosgatePred_mono (alpha m : ℚ) (kD : ℕ) (hm : 0 < m)
    {a b : ℕ} (hab : a ≤ b) (ha : fosgatePred alpha kD m a = true) :
    fosgatePred alpha kD m b = true := by
  simp only [fosgatePred, decide_eq_true_eq] at ha ⊢
  refine le_trans (pow_le_pow_left₀ (le_max_left 0 _) ?_ kD) ha
  apply max_le_max le_rfl
  apply sub_le_sub_left
  exact (div_le_div_iff_of_pos_right hm).mpr (by exact_mod_cast hab)

/-- Below a failing candidate, every candidate fails. -/
theorem fosgatePred_false_below (alpha m : ℚ) (kD : ℕ) (hm : 0 < m)
    {n : ℕ} (hn : fosgatePred alpha kD m n = false) :
    ∀ j, j ≤ n → fosgatePred alpha kD m j = false := by
  intro j hj
  by_contra hcon
  have hb := fosgatePred_mono alpha m kD hm hj (by simpa using hcon)
  rw [hn] at hb
  exact Bool.noConfusion hb

/-- Modelled from the spec: sample size of the hypergeometric sample
strategy (the Python inspection module is not shipped under `src/`; the
formula is the one given in `src/docs/inspections.md`).  With
`alpha = 1 - confidence_level` and `kD = round(detection_level * N)`,
the sample size is `ceil((1 - alpha^(1/kD)) * (N - (kD-1)/2))`, clamped
to `[0, N]`, and `0` when `kD = 0`.  The ceiling of the real-valued
formula is realised as the least `n` in `[0, N]` meeting the equivalent
rational Fosgate requirement `fosgatePred`; the bridging theorem below
proves this equal to the real ceiling formula. -/
def hypergeometricSampleSize (detectionLevel confidenceLevel : ℚ) (numUnits : ℕ) : ℕ :=
  if (round (detectionLevel * numUnits)).toNat = 0 then 0
  else min numUnits
    (searchLeast
      (fosgatePred (1 - confidenceLevel) (round (detectionLevel * numUnits)).toNat
        ((numUnits : ℚ) - (((round (detectionLevel * numUnits)).toNat : ℚ) - 1) / 2))
      numUnits 0)

/-- Bridge to the spec formula: for any real `x ≥ 0` with
`x^kD = alpha` (that is, `x = alpha^(1/kD)`), the computed sample size
is `ceil((1-x) * (N - (kD-1)/2))` clamped to `[0, N]`. -/
theorem hypergeometricSampleSize_eq_ceil
    (detectionLevel confidenceLevel : ℚ) (numUnits : ℕ) (x : ℝ)
    (hk : (round (detectionLevel * numUnits)).toNat ≠ 0)
    (ha1 : 1 - confidenceLevel ≤ 1)
    (hM : (((round (detectionLevel * numUnits)).toNat : ℚ) - 1) / 2 < numUnits)
    (hx0 : 0 ≤ x)
    (hxK : x ^ (round (detectionLevel * numUnits)).toNat
      = ((1 - confidenceLevel : ℚ) : ℝ)) :
    (hypergeometricSampleSize detectionLevel confidenceLevel numUnits : ℤ)
      = max 0 (min (numUnits : ℤ)
          ⌈(1 - x) * ((numUnits : ℝ)
            - (((round (detectionLevel * numUnits)).toNat : ℝ) - 1) / 2)⌉) := by
  set K : ℕ := (round (detectionLevel * numUnits)).toNat with hKdef
  set alpha : ℚ := 1 - confidenceLevel with halphadef
  set M : ℚ := (numUnits : ℚ) - ((K : ℚ) - 1) / 2 with hMdef
  set MR : ℝ := (numUnits : ℝ) - ((K : ℝ) - 1) / 2 with hMRdef
  have hMcast : ((M : ℚ) : ℝ) = MR := by rw [hMdef, hMRdef]; push_cast; ring
  have hMR : (0 : ℝ) < MR := by
    rw [← hMcast]
    have : (0 : ℚ) < M := by rw [hMdef]; linarith
    exact_mod_cast this
  have hK1 : 1 ≤ K := Nat.one_le_iff_ne_zero.mpr hk
  have hx1 : x ≤ 1 := by
    by_contra hcon
    push_neg at hcon
    have h1 : (1 : ℝ) < x ^ K := one_lt_pow₀ hcon hk
    rw [hxK] at h1
    have : (1 : ℚ) < alpha := by exact_mod_cast h1
    linarith
  have hy0 : (0 : ℝ) ≤ (1 - x) * MR := mul_nonneg (by linarith) hMR.le
  have hyM : (1 - x) * MR ≤ MR := mul_le_of_le_one_left hMR.le (by linarith)
  have hMN : MR ≤ (numUnits : ℝ) := by
    rw [hMRdef]
    have : (1 : ℝ) ≤ (K : ℝ) := by exact_mod_cast hK1
    have : (0 : ℝ) ≤ ((K : ℝ) - 1) / 2 := by linarith
    linarith
  have predIff : ∀ n : ℕ, fosgatePred alpha K M n = true ↔ (1 - x) * MR ≤ n := by
    intro n
    simp only [fosgatePred, decide_eq_true_eq]
    have hcast : ((max 0 (1 - (n : ℚ) / M)) ^ K ≤ alpha)
        ↔ ((max (0:ℝ) (1 - (n : ℝ) / MR)) ^ K ≤ ((alpha : ℚ) : ℝ)) := by
      rw [← hMcast]
      constructor
      · intro h; exact_mod_cast h
      · intro h; exact_mod_cast h
    rw [hcast, ← hxK]
    by_cases hn : (1 : ℝ) - (n : ℝ) / MR ≤ 0
    · rw [max_eq_left hn, zero_pow hk]
      have hMn : MR ≤ (n : ℝ) := by
        have h1 : (1 : ℝ) ≤ (n : ℝ) / MR := by linarith
        exact (one_le_div hMR).mp h1
      constructor
      · intro _; linarith
      · intro _; exact pow_nonneg hx0 K
    · push_neg at hn
      rw [max_eq_right (by linarith)]
      rw [pow_le_pow_iff_left₀ (by linarith) hx0 hk]
      constructor
      · intro h
        have h2 : 1 - x ≤ (n : ℝ) / MR := by linarith
        calc (1 - x) * MR ≤ ((n : ℝ) / MR) * MR :=
              mul_le_mul_of_nonneg_right h2 hMR.le
          _ = (n : ℝ) := by field_simp
      · intro h
        have h2 : 1 - x ≤ (n : ℝ) / MR := by
          rw [le_div_iff₀ hMR]
          exact h
        linarith
  set y : ℝ := (1 - x) * MR with hydef
  have hceil0 : (0 : ℤ) ≤ ⌈y⌉ := Int.ceil_nonneg hy0
  have hceilN : ⌈y⌉ ≤ (numUnits : ℤ) := by
    rw [Int.ceil_le]
    push_cast
    linarith
  set n0 : ℕ := ⌈y⌉.toNat with hn0def
  have hn0cast : (n0 : ℤ) = ⌈y⌉ := Int.toNat_of_nonneg hceil0
  have hn0N : n0 ≤ numUnits := by omega
  have ht : fosgatePred alpha K M n0 = true := by
    rw [predIff]
    have h1 : y ≤ (⌈y⌉ : ℝ) := Int.le_ceil y
    have h2 : ((n0 : ℕ) : ℝ) = ((⌈y⌉ : ℤ) : ℝ) := by exact_mod_cast hn0cast
    rw [h2]
    exact h1
  have hf : ∀ m, m < n0 → fosgatePred alpha K M m = false := by
    intro m hm
    rw [← Bool.not_eq_true, predIff]
    intro hcon
    have h1 : (m : ℤ) < ⌈y⌉ := by omega
    have h2 := Int.lt_ceil.mp h1
    push_cast at h2
    linarith
  unfold hypergeometricSampleSize
  rw [if_neg hk]
  rw [searchLeast_eq _ numUnits n0 hn0N ht hf]
  have hmin : min numUnits n0 = n0 := min_eq_right hn0N
  rw [hmin, min_eq_right hceilN, max_eq_right hceil0]
  exact hn0cast

/-- Rounded detected-units count at detection level 0.05 and 1000 units. -/
theorem round_D05_toNat : (round ((5:ℚ)/100 * ((1000:ℕ):ℚ))).toNat = 50 := by
  have h : round ((5:ℚ)/100 * ((1000:ℕ):ℚ)) = 50 := by norm_num [round_eq]
  rw [h]; rfl

/-- Rounded detected-units count at detection level 0.1 and 1000 units. -/
theorem round_D01_toNat : (round ((1:ℚ)/10 * ((1000:ℕ):ℚ))).toNat = 100 := by
  have h : round ((1:ℚ)/10 * ((1000:ℕ):ℚ)) = 100 := by norm_num [round_eq]
  rw [h]; rfl

/-- Concrete evaluation: detection level 0.05, confidence 0.95, 1000
units give sample size 57. -/
theorem hyperg_value_D05 : hypergeometricSampleSize (5/100) (95/100) 1000 = 57 := by
  unfold hypergeometricSampleSize
  rw [round_D05_toNat]
  rw [if_neg (by norm_num)]
  have hm : (0:ℚ) < ((1000:ℕ):ℚ) - (((50:ℕ):ℚ) - 1) / 2 := by push_cast; norm_num
  have ht : fosgatePred (1 - 95/100) 50 (((1000:ℕ):ℚ) - (((50:ℕ):ℚ) - 1) / 2) 57 = true := by
    simp only [fosgatePred, decide_eq_true_eq]
    have hmax : (max 0 (1 - ((57:ℕ):ℚ) / (((1000:ℕ):ℚ) - (((50:ℕ):ℚ) - 1) / 2)))
        = 1837/1951 := by
      rw [max_eq_right] <;> push_cast <;> norm_num
    rw [hmax]
    norm_num
  have hf : ∀ m, m < 57 →
      fosgatePred (1 - 95/100) 50 (((1000:ℕ):ℚ) - (((50:ℕ):ℚ) - 1) / 2) m = false := by
    intro j hj
    refine fosgatePred_false_below _ _ _ hm (n := 56) ?_ j (by omega)
    simp only [fosgatePred, decide_eq_false_iff_not, not_le]
    have hmax : (max 0 (1 - ((56:ℕ):ℚ) / (((1000:ℕ):ℚ) - (((50:ℕ):ℚ) - 1) / 2)))
        = 1839/1951 := by
      rw [max_eq_right] <;> push_cast <;> norm_num
    rw [hmax]
    norm_num
  rw [searchLeast_eq _ 1000 57 (by norm_num) ht hf]
  omega

/-- Concrete evaluation: detection level 0.1, confidence 0.95, 1000
units give sample size 29. -/
theorem hyperg_value_D01 : hypergeometricSampleSize (1/10) (95/100) 1000 = 29 := by
  unfold hypergeometricSampleSize
  rw [round_D01_toNat]
  rw [if_neg (by norm_num)]
  have hm : (0:ℚ) < ((1000:ℕ):ℚ) - (((100:ℕ):ℚ) - 1) / 2 := by push_cast; norm_num
  have ht : fosgatePred (1 - 95/100) 100 (((1000:ℕ):ℚ) - (((100:ℕ):ℚ) - 1) / 2) 29 = true := by
    simp only [fosgatePred, decide_eq_true_eq]
    have hmax : (max 0 (1 - ((29:ℕ):ℚ) / (((1000:ℕ):ℚ) - (((100:ℕ):ℚ) - 1) / 2)))
        = 1843/1901 := by
      rw [max_eq_right] <;> push_cast <;> norm_num
    rw [hmax]
    norm_num
  have hf : ∀ m, m < 29 →
      fosgatePred (1 - 95/100) 100 (((1000:ℕ):ℚ) - (((100:ℕ):ℚ) - 1) / 2) m = false := by
    intro j hj
    refine fosgatePred_false_below _ _ _ hm (n := 28) ?_ j (by omega)
    simp only [fosgatePred, decide_eq_false_iff_not, not_le]
    have hmax : (max 0 (1 - ((28:ℕ):ℚ) / (((1000:ℕ):ℚ) - (((100:ℕ):ℚ) - 1) / 2)))
        = 1845/1901 := by
      rw [max_eq_right] <;> push_cast <;> norm_num
    rw [hmax]
    norm_num
  rw [searchLeast_eq _ 1000 29 (by norm_num) ht hf]
  omega

/-- C1 (amended): for every consignment with N total units and every
hypergeometric sample strategy with detection level D and confidence
level C, the computed sample size equals
ceil((1 - alpha^(1/K)) * (N - (K-1)/2)) with alpha = 1-C and
K = round(D*N), clamped to [0, N], and equals 0 when K = 0; for
N=1000, D=0.05, C=0.95 it returns 57 (not 59 as the spec's scenario
table says), and for N=1000, D=0.1, C=0.95 it returns 29. -/
theorem hypergeometric_sample_size_fosgate :
    (∀ (detectionLevel confidenceLevel : ℚ) (numUnits : ℕ) (x : ℝ),
      (round (detectionLevel * numUnits)).toNat ≠ 0 →
      1 - confidenceLevel ≤ 1 →
      (((round (detectionLevel * numUnits)).toNat : ℚ) - 1) / 2 < numUnits →
      0 ≤ x →
      x ^ (round (detectionLevel * numUnits)).toNat = ((1 - confidenceLevel : ℚ) : ℝ) →
      (hypergeometricSampleSize detectionLevel confidenceLevel numUnits : ℤ)
        = max 0 (min (numUnits : ℤ)
            ⌈(1 - x) * ((numUnits : ℝ)
              - (((round (detectionLevel * numUnits)).toNat : ℝ) - 1) / 2)⌉))
    ∧ (∀ (detectionLevel confidenceLevel : ℚ) (numUnits : ℕ),
        (round (detectionLevel * numUnits)).toNat = 0 →
        hypergeometricSampleSize detectionLevel confidenceLevel numUnits = 0)
    ∧ hypergeometricSampleSize (5/100) (95/100) 1000 = 57
    ∧ hypergeometricSampleSize (1/10) (95/100) 1000 = 29 := by
  refine ⟨?_, ?_, hyperg_value_D05, hyperg_value_D01⟩
  · intro d c n x h1 h2 h3 h4 h5
    exact hypergeometricSampleSize_eq_ceil d c n x h1 h2 h3 h4 h5
  · intro d c n h
    unfold hypergeometricSampleSize
    rw [if_pos h]

/-- Witness for C1 at detection level 0.05, confidence level 0.95 and
1000 units, instantiating the abstract root x with the real number
(1/20)^(1/50). -/
theorem hypergeometric_sample_size_fosgate_witness :
    (hypergeometricSampleSize (5/100) (95/100) 1000 : ℤ)
      = max 0 (min (((1000:ℕ)) : ℤ)
          ⌈(1 - ((1/20 : ℝ) ^ ((50:ℝ)⁻¹))) * (((1000:ℕ) : ℝ)
            - (((round ((5/100 : ℚ) * ((1000:ℕ):ℚ))).toNat : ℝ) - 1) / 2)⌉) := by
  refine hypergeometric_sample_size_fosgate.1 (5/100) (95/100) 1000
    ((1/20 : ℝ) ^ ((50:ℝ)⁻¹)) ?_ (by norm_num) ?_ ?_ ?_
  · rw [round_D05_toNat]; norm_num
  · rw [round_D05_toNat]; push_cast; norm_num
  · positivity
  · rw [round_D05_toNat]
    rw [← Real.rpow_natCast ((1/20 : ℝ) ^ ((50:ℝ)⁻¹)) 50,
      ← Real.rpow_mul (by norm_num)]
    push_cast
    norm_num

/-- Counterexample for C1 as stated: at N=1000, D=0.05, C=0.95 the
computed sample size is 57, not the 59 asserted by the spec's concrete
scenario (59 is the binomial approximation, not the Fosgate value). -/
theorem hypergeometric_sample_size_not_59 :
    hypergeometricSampleSize (5/100) (95/100) 1000 ≠ 59 := by
  rw [hyperg_value_D05]
  omega

/-! ## Contamination engine: box unit -/

/-- Modelled from the spec: number of fully contaminated boxes when the
contamination unit is boxes; the real-valued box count `rate * B` is
truncated to its integer part. -/
def boxUnitFullBoxes (rate : ℚ) (numBoxes : ℕ) : ℕ :=
  (⌊rate * numBoxes⌋).toNat

/-- Modelled from the spec: number of contaminated items in the box
following the fully contaminated ones; the fractional remainder of
`rate * B` is applied to the items of one box and rounded. -/
def boxUnitResidualItems (rate : ℚ) (numBoxes itemsPerBox : ℕ) : ℕ :=
  (round ((rate * numBoxes - ⌊rate * numBoxes⌋) * itemsPerBox)).toNat

/-- Modelled from the spec: with contamination unit boxes, item `i`
(global index, box `i / itemsPerBox`) is contaminated when its box is
one of the full boxes, or when its box is the next box and the item is
among the first residual items of that box. -/
def boxUnitItemContaminated (rate : ℚ) (numBoxes itemsPerBox : ℕ) (i : ℕ) : Bool :=
  decide (i / itemsPerBox < boxUnitFullBoxes rate numBoxes)
  || (decide (i / itemsPerBox = boxUnitFullBoxes rate numBoxes)
      && decide (i % itemsPerBox < boxUnitResidualItems rate numBoxes itemsPerBox))

/-- The residual item count never exceeds the box capacity. -/
theorem boxUnitResidualItems_le (rate : ℚ) (numBoxes itemsPerBox : ℕ) :
    boxUnitResidualItems rate numBoxes itemsPerBox ≤ itemsPerBox := by
  unfold boxUnitResidualItems
  have hfr0 : (0:ℚ) ≤ rate * numBoxes - ⌊rate * numBoxes⌋ := by
    have := Int.floor_le (rate * numBoxes)
    linarith
  have hfr1 : rate * numBoxes - ⌊rate * numBoxes⌋ < 1 := by
    have := Int.lt_floor_add_one (rate * numBoxes)
    linarith
  have hle : (rate * numBoxes - ⌊rate * numBoxes⌋) * itemsPerBox ≤ (itemsPerBox : ℚ) := by
    calc (rate * numBoxes - ⌊rate * numBoxes⌋) * itemsPerBox
        ≤ 1 * (itemsPerBox : ℚ) :=
          mul_le_mul_of_nonneg_right (by linarith) (by positivity)
      _ = (itemsPerBox : ℚ) := one_mul _
  have hround : round ((rate * numBoxes - ⌊rate * numBoxes⌋) * itemsPerBox)
      ≤ (itemsPerBox : ℤ) := by
    rw [round_eq]
    calc ⌊(rate * numBoxes - ⌊rate * numBoxes⌋) * itemsPerBox + 1/2⌋
        ≤ ⌊(1:ℚ)/2 + itemsPerBox⌋ := Int.floor_le_floor (by linarith)
      _ = ⌊(1:ℚ)/2⌋ + itemsPerBox := Int.floor_add_nat _ _
      _ = (itemsPerBox : ℤ) := by norm_num
  omega

/-- Membership in the initial segment of length `F * K + R`, described
box-wise: the item's box is before box `F`, or it is box `F` and the
within-box position is below `R`. -/
theorem initial_segment_box_split (K F R i : ℕ) (hK : 0 < K) (hRK : R ≤ K) :
    (i / K < F ∨ (i / K = F ∧ i % K < R)) ↔ i < F * K + R := by
  have hdm := Nat.div_add_mod i K
  have hmod : i % K < K := Nat.mod_lt i hK
  have hcomm : K * F = F * K := Nat.mul_comm K F
  constructor
  · rintro (hlt | ⟨heq, hres⟩)
    · have h2 : K * (i / K + 1) ≤ K * F := Nat.mul_le_mul_left K hlt
      have h5 : K * (i / K + 1) = K * (i / K) + K := by ring
      omega
    · have h6 : K * (i / K) = K * F := by rw [heq]
      omega
  · intro hbound
    by_cases hlt : i / K < F
    · exact Or.inl hlt
    · right
      have heq : i / K = F := by
        by_contra hne
        have hgt : F + 1 ≤ i / K := by omega
        have h1 : K * (F + 1) ≤ K * (i / K) := Nat.mul_le_mul_left K (by omega)
        have h2 : K * (F + 1) = F * K + K := by ring
        omega
      have h6 : K * (i / K) = K * F := by rw [heq]
      exact ⟨heq, by omega⟩

/-- C3: with contamination unit boxes and drawn rate r, the engine
contaminates floor(r*B) full boxes plus round((r*B - floor(r*B))*K)
items in the next box, placed contiguously from item 0 of box 0: the
contaminated items are exactly the initial segment of that length, their
number equals that length, and for B=10, K=100, r=0.01 there are 0 full
boxes and 10 residual items, so exactly items 0..9 are contaminated. -/
theorem box_unit_contamination_contiguous :
    (∀ (rate : ℚ) (numBoxes itemsPerBox i : ℕ), 0 < itemsPerBox →
      (boxUnitItemContaminated rate numBoxes itemsPerBox i = true
        ↔ i < boxUnitFullBoxes rate numBoxes * itemsPerBox
            + boxUnitResidualItems rate numBoxes itemsPerBox))
    ∧ (∀ (rate : ℚ) (numBoxes itemsPerBox : ℕ), 0 < itemsPerBox → 0 ≤ rate → rate ≤ 1 →
        ((Finset.range (numBoxes * itemsPerBox)).filter
            (fun i => boxUnitItemContaminated rate numBoxes itemsPerBox i = true)).card
          = boxUnitFullBoxes rate numBoxes * itemsPerBox
            + boxUnitResidualItems rate numBoxes itemsPerBox)
    ∧ boxUnitFullBoxes (1/100) 10 = 0
    ∧ boxUnitResidualItems (1/100) 10 100 = 10 := by
  have key : ∀ (rate : ℚ) (numBoxes itemsPerBox i : ℕ), 0 < itemsPerBox →
      (boxUnitItemContaminated rate numBoxes itemsPerBox i = true
        ↔ i < boxUnitFullBoxes rate numBoxes * itemsPerBox
            + boxUnitResidualItems rate numBoxes itemsPerBox) := by
    intro rate numBoxes itemsPerBox i hK
    simp only [boxUnitItemContaminated, Bool.or_eq_true, Bool.and_eq_true,
      decide_eq_true_eq]
    exact initial_segment_box_split itemsPerBox (boxUnitFullBoxes rate numBoxes)
      (boxUnitResidualItems rate numBoxes itemsPerBox) i hK
      (boxUnitResidualItems_le rate numBoxes itemsPerBox)
  refine ⟨key, ?_, ?_, ?_⟩
  · intro rate numBoxes itemsPerBox hK hr0 hr1
    have hrB : rate * numBoxes ≤ (numBoxes : ℚ) := by
      calc rate * numBoxes ≤ 1 * (numBoxes : ℚ) :=
            mul_le_mul_of_nonneg_right hr1 (by positivity)
        _ = (numBoxes : ℚ) := one_mul _
    have hFB : boxUnitFullBoxes rate numBoxes ≤ numBoxes := by
      have h2 : ⌊rate * numBoxes⌋ ≤ (numBoxes : ℤ) := by
        calc ⌊rate * numBoxes⌋ ≤ ⌊((numBoxes : ℕ) : ℚ)⌋ := Int.floor_le_floor hrB
          _ = (numBoxes : ℤ) := Int.floor_natCast numBoxes
      unfold boxUnitFullBoxes
      omega
    have hbound : boxUnitFullBoxes rate numBoxes * itemsPerBox
        + boxUnitResidualItems rate numBoxes itemsPerBox ≤ numBoxes * itemsPerBox := by
      rcases Nat.lt_or_ge (boxUnitFullBoxes rate numBoxes) numBoxes with hlt | hge
      · have hRK := boxUnitResidualItems_le rate numBoxes itemsPerBox
        calc boxUnitFullBoxes rate numBoxes * itemsPerBox
            + boxUnitResidualItems rate numBoxes itemsPerBox
            ≤ boxUnitFullBoxes rate numBoxes * itemsPerBox + itemsPerBox := by omega
          _ = (boxUnitFullBoxes rate numBoxes + 1) * itemsPerBox := by ring
          _ ≤ numBoxes * itemsPerBox := Nat.mul_le_mul_right itemsPerBox (by omega)
      · have hFeq : boxUnitFullBoxes rate numBoxes = numBoxes := by omega
        have hfloorB : (numBoxes : ℤ) ≤ ⌊rate * numBoxes⌋ := by
          have hpos : (0:ℤ) ≤ ⌊rate * numBoxes⌋ := Int.floor_nonneg.mpr (by positivity)
          unfold boxUnitFullBoxes at hFeq
          omega
        have hfloor : (⌊rate * numBoxes⌋ : ℚ) = rate * numBoxes := by
          have h2 : ((numBoxes : ℤ) : ℚ) ≤ (⌊rate * numBoxes⌋ : ℚ) := by
            exact_mod_cast hfloorB
          have h3 : (⌊rate * numBoxes⌋ : ℚ) ≤ rate * numBoxes := Int.floor_le _
          push_cast at h2
          linarith
        have hRzero : boxUnitResidualItems rate numBoxes itemsPerBox = 0 := by
          unfold boxUnitResidualItems
          rw [show rate * (numBoxes : ℚ) - (⌊rate * numBoxes⌋ : ℚ) = 0 by linarith]
          norm_num
        rw [hFeq, hRzero]
        omega
    have hfilter : (Finset.range (numBoxes * itemsPerBox)).filter
        (fun i => boxUnitItemContaminated rate numBoxes itemsPerBox i = true)
        = Finset.range (boxUnitFullBoxes rate numBoxes * itemsPerBox
            + boxUnitResidualItems rate numBoxes itemsPerBox) := by
      ext i
      simp only [Finset.mem_filter, Finset.mem_range]
      rw [key rate numBoxes itemsPerBox i hK]
      omega
    rw [hfilter, Finset.card_range]
  · unfold boxUnitFullBoxes
    norm_num
  · unfold boxUnitResidualItems
    have h : round (((1:ℚ)/100 * ((10:ℕ):ℚ) - ⌊(1:ℚ)/100 * ((10:ℕ):ℚ)⌋) * ((100:ℕ):ℚ))
        = 10 := by
      norm_num [round_eq]
    rw [h]
    rfl

/-- Witness for C3: with B=10, K=100, r=0.01, item 9 is contaminated. -/
theorem box_unit_contamination_witness :
    boxUnitItemContaminated (1/100) 10 100 9 = true := by
  rw [box_unit_contamination_contiguous.1 (1/100) 10 100 9 (by norm_num)]
  rw [box_unit_contamination_contiguous.2.2.1, box_unit_contamination_contiguous.2.2.2]
  omega

/-! ## Contamination engine: consignment rules -/

/-- Modelled from the spec: the contamination parameters the engine
needs to contaminate one consignment (unit, arrangement, rate of the
fixed-value distribution). -/
structure ContaminationParams where
  contaminationUnit : String
  arrangement : String
  contaminationRate : ℚ
deriving DecidableEq

/-- Modelled from the spec: system defaults for contamination
parameters, used for fields a nested rule configuration leaves out when
`use_contamination_defaults` is not set. -/
def defaultContaminationParams : ContaminationParams :=
  ⟨"item", "random", 0⟩

/-- Modelled from the spec: a nested contamination configuration inside
a consignment rule; every field is optional. -/
structure PartialContaminationParams where
  contaminationUnit : Option String
  arrangement : Option String
  contaminationRate : Option ℚ
deriving DecidableEq

/-- Modelled from the spec: one rule of `contamination.consignments`.
Present fields must all equal the consignment's fields; the date, when
bounded, must lie in `[startDate, endDate]`. -/
structure ConsignmentRule where
  commodity : Option String
  origin : Option String
  port : Option String
  startDate : Option ℕ
  endDate : Option ℕ
  useContaminationDefaults : Bool
  contamination : Option PartialContaminationParams
deriving DecidableEq

/-- Modelled from the spec: a consignment matches a rule when every
present field of the rule equals the consignment's corresponding field
and the date lies within the rule's date range. -/
def ruleMatches (r : ConsignmentRule) (c : Consignment) : Bool :=
  (match r.commodity with | some v => v == c.commodity | none => true)
  && (match r.origin with | some v => v == c.origin | none => true)
  && (match r.port with | some v => v == c.port | none => true)
  && (match r.startDate with | some d => decide (d ≤ c.date) | none => true)
  && (match r.endDate with | some d => decide (c.date ≤ d) | none => true)

/-- Modelled from the spec: rules are evaluated in declaration order and
the first matching rule wins. -/
def firstMatchingRule (rules : List ConsignmentRule) (c : Consignment) :
    Option ConsignmentRule :=
  rules.find? (fun r => ruleMatches r c)

/-- Modelled from the spec: the contamination parameters in effect for a
matched rule.  Without a nested configuration the top-level parameters
apply unchanged; with a nested configuration the top level is ignored
(fields absent from the nested configuration take system defaults)
unless `use_contamination_defaults` is true, in which case top-level
values fill the absent fields. -/
def effectiveContamination (top : ContaminationParams) (r : ConsignmentRule) :
    ContaminationParams :=
  match r.contamination with
  | none => top
  | some p =>
    let base := if r.useContaminationDefaults then top else defaultContaminationParams
    ⟨p.contaminationUnit.getD base.contaminationUnit,
      p.arrangement.getD base.arrangement,
      p.contaminationRate.getD base.contaminationRate⟩

/-- Modelled from the spec: parameters used for a consignment: without a
rule list every consignment uses the top-level parameters; with a rule
list, the first matching rule's effective parameters apply, and a
consignment matching no rule is not contaminated at all. -/
def resolveContamination (top : ContaminationParams)
    (rules : Option (List ConsignmentRule)) (c : Consignment) :
    Option ContaminationParams :=
  match rules with
  | none => some top
  | some rs => (firstMatchingRule rs c).map (effectiveContamination top)

/-- Modelled from the spec: number of contaminated items dictated by the
parameters: `round(rate * N)` for the item unit, and full boxes plus
residual for the box unit. -/
def contaminationTargetItems (p : ContaminationParams) (numBoxes itemsPerBox : ℕ) : ℕ :=
  if p.contaminationUnit == "boxes" then
    boxUnitFullBoxes p.contaminationRate numBoxes * itemsPerBox
      + boxUnitResidualItems p.contaminationRate numBoxes itemsPerBox
  else (round (p.contaminationRate * ((numBoxes * itemsPerBox : ℕ) : ℚ))).toNat

/-- Modelled from the spec: number of items the engine contaminates in a
consignment under a top-level configuration and an optional rule list. -/
def contaminateCount (top : ContaminationParams)
    (rules : Option (List ConsignmentRule)) (c : Consignment) : ℕ :=
  match resolveContamination top rules c with
  | none => 0
  | some eff => contaminationTargetItems eff c.numBoxes c.itemsPerBox

/-- C5: rule resolution uses the first rule in declaration order whose
present fields all match; a matched rule's nested configuration replaces
the top-level configuration entirely unless use_contamination_defaults
is true, in which case top-level values fill the fields absent from the
nested configuration (and without a nested configuration the top level
applies); a consignment matching no rule gets zero contaminated items. -/
theorem contamination_rule_resolution :
    (∀ (r : ConsignmentRule) (rs : List ConsignmentRule) (c : Consignment),
      ruleMatches r c = true → firstMatchingRule (r :: rs) c = some r)
    ∧ (∀ (r : ConsignmentRule) (rs : List ConsignmentRule) (c : Consignment),
        ruleMatches r c = false →
        firstMatchingRule (r :: rs) c = firstMatchingRule rs c)
    ∧ (∀ (top : ContaminationParams) (r : ConsignmentRule)
          (p : PartialContaminationParams),
        r.contamination = some p → r.useContaminationDefaults = true →
        effectiveContamination top r =
          ⟨p.contaminationUnit.getD top.contaminationUnit,
            p.arrangement.getD top.arrangement,
            p.contaminationRate.getD top.contaminationRate⟩)
    ∧ (∀ (top : ContaminationParams) (r : ConsignmentRule)
          (p : PartialContaminationParams),
        r.contamination = some p → r.useContaminationDefaults = false →
        effectiveContamination top r =
          ⟨p.contaminationUnit.getD defaultContaminationParams.contaminationUnit,
            p.arrangement.getD defaultContaminationParams.arrangement,
            p.contaminationRate.getD defaultContaminationParams.contaminationRate⟩)
    ∧ (∀ (top : ContaminationParams) (r : ConsignmentRule),
        r.contamination = none → effectiveContamination top r = top)
    ∧ (∀ (top : ContaminationParams) (rs : List ConsignmentRule) (c : Consignment),
        (∀ r ∈ rs, ruleMatches r c = false) →
        contaminateCount top (some rs) c = 0) := by
  refine ⟨?_, ?_, ?_, ?_, ?_, ?_⟩
  · intro r rs c hm
    exact List.find?_cons_of_pos _ hm
  · intro r rs c hm
    exact List.find?_cons_of_neg _ (by simp [hm])
  · intro top r p hp hd
    unfold effectiveContamination
    rw [hp]
    simp [hd]
  · intro top r p hp hd
    unfold effectiveContamination
    rw [hp]
    simp [hd]
  · intro top r hp
    unfold effectiveContamination
    rw [hp]
  · intro top rs c hnone
    have hfind : firstMatchingRule rs c = none :=
      List.find?_eq_none.mpr (fun r hr => by simp [hnone r hr])
    have hres : resolveContamination top (some rs) c = none := by
      show (firstMatchingRule rs c).map (effectiveContamination top) = none
      rw [hfind]
      rfl
    unfold contaminateCount
    rw [hres]

/-- Witness for C5: a rule with no present fields matches any
consignment, so it wins as the head of the rule list. -/
theorem contamination_rule_resolution_witness :
    firstMatchingRule
        [(⟨none, none, none, none, none, false, none⟩ : ConsignmentRule)]
        ⟨"Rosa", "Netherlands", "FL Miami Air CBP", 738000, 10, 100⟩
      = some ⟨none, none, none, none, none, false, none⟩ :=
  contamination_rule_resolution.1
    ⟨none, none, none, none, none, false, none⟩ []
    ⟨"Rosa", "Netherlands", "FL Miami Air CBP", 738000, 10, 100⟩ rfl

/-! ## Naive cut flower release program -/

/-- Modelled from the spec: the flower of the day is picked
deterministically from the configured list as a function of the date
(ordinal date modulo the length of the list). -/
def flowerOfTheDay (flowers : List String) (date : ℕ) : Option String :=
  flowers[date % flowers.length]?

/-- Modelled from the spec: decision of the naive cut flower release
program for one consignment.  The program applies only to consignments
whose commodity is in the configured flower list and whose box count is
below `maxBoxes`; among those, the one carrying the flower of the day is
inspected and all others are released.  Consignments outside the program
are inspected. -/
def naiveCfrp (flowers : List String) (maxBoxes : ℕ) (c : Consignment) :
    ProgramDecision :=
  if c.commodity ∈ flowers ∧ c.numBoxes < maxBoxes then
    if flowerOfTheDay flowers c.date = some c.commodity then ProgramDecision.inspect
    else ProgramDecision.release
  else ProgramDecision.inspect

/-- C6: under the naive CFRP with a configured flower list, on every
date there is a flower of the day taken from the list, and every
consignment of that date whose commodity is in the list and whose box
count is below maxBoxes is inspected exactly when it carries the flower
of the day and released exactly otherwise. -/
theorem naive_cfrp_flower_of_the_day (flowers : List String) (maxBoxes : ℕ)
    (d : ℕ) (hne : flowers ≠ []) :
    ∃ f, f ∈ flowers ∧ flowerOfTheDay flowers d = some f
      ∧ ∀ c : Consignment, c.date = d → c.commodity ∈ flowers →
          c.numBoxes < maxBoxes →
          ((naiveCfrp flowers maxBoxes c = ProgramDecision.inspect ↔ c.commodity = f)
            ∧ (naiveCfrp flowers maxBoxes c = ProgramDecision.release
                ↔ c.commodity ≠ f)) := by
  have hlen : 0 < flowers.length := List.length_pos.mpr hne
  have hidx : d % flowers.length < flowers.length := Nat.mod_lt d hlen
  refine ⟨flowers[d % flowers.length], List.getElem_mem hidx, ?_, ?_⟩
  · unfold flowerOfTheDay
    exact List.getElem?_eq_getElem hidx
  · intro c hdate hmem hbox
    have hfl : flowerOfTheDay flowers c.date = some flowers[d % flowers.length] := by
      rw [hdate]
      unfold flowerOfTheDay
      exact List.getElem?_eq_getElem hidx
    unfold naiveCfrp
    rw [if_pos ⟨hmem, hbox⟩, hfl]
    by_cases heq : c.commodity = flowers[d % flowers.length]
    · rw [if_pos (by rw [heq])]
      constructor
      · constructor
        · intro _; exact heq
        · intro _; rfl
      · constructor
        · intro hcon; exact absurd hcon (by simp)
        · intro hcon; exact absurd heq hcon
    · rw [if_neg (by intro hsome; exact heq (Option.some_injective _ hsome).symm)]
      constructor
      · constructor
        · intro hcon; exact absurd hcon (by simp)
        · intro hcon; exact absurd hcon heq
      · constructor
        · intro _; exact heq
        · intro _; rfl

/-- Witness for C6 with two flowers on day 1: the flower of the day
exists in the list and rules the inspect/release decision. -/
theorem naive_cfrp_witness :
    ∃ f, f ∈ ["Hyacinthus", "Rosa"] ∧ flowerOfTheDay ["Hyacinthus", "Rosa"] 1 = some f
      ∧ ∀ c : Consignment, c.date = 1 → c.commodity ∈ ["Hyacinthus", "Rosa"] →
          c.numBoxes < 10 →
          ((naiveCfrp ["Hyacinthus", "Rosa"] 10 c = ProgramDecision.inspect
              ↔ c.commodity = f)
            ∧ (naiveCfrp ["Hyacinthus", "Rosa"] 10 c = ProgramDecision.release
                ↔ c.commodity ≠ f)) :=
  naive_cfrp_flower_of_the_day ["Hyacinthus", "Rosa"] 10 1 (by simp)

/-! ## Inspection: marking inspected items -/

/-- Modelled from the spec: the to-completion pass walks the selected
item indices in order and sets the inspected flag of each one. -/
def markInspected (selected : List ℕ) (flags : ℕ → Bool) : ℕ → Bool :=
  selected.foldl (fun acc i => fun j => if j = i then true else acc j) flags

/-- The inspected flags after marking are the old flags joined with
membership in the selected list. -/
theorem markInspected_eq (selected : List ℕ) : ∀ (flags : ℕ → Bool) (j : ℕ),
    markInspected selected flags j = (flags j || decide (j ∈ selected)) := by
  induction selected with
  | nil => intro flags j; simp [markInspected]
  | cons a l ih =>
    intro flags j
    show markInspected l (fun i => if i = a then true else flags i) j = _
    rw [ih]
    by_cases h : j = a <;> simp [h]

/-- Modelled from the spec: the unit selection strategies of the
inspection configuration. -/
inductive SelectionStrategy where
  | random
  | convenience
  | clusterRandom
  | clusterInterval (interval : ℕ)
deriving DecidableEq

/-- Items of a consignment listed box by box, keeping in each box only
the first `cap` items (the within-box proportion cap). -/
def perBoxCappedItems (numBoxes itemsPerBox cap : ℕ) : List ℕ :=
  (List.range numBoxes).flatMap
    (fun b => (List.range (min cap itemsPerBox)).map (fun j => b * itemsPerBox + j))

/-- Number of boxes needed to reach sample size `s` with at most `cap`
items inspected per box (the ceiling of `s / cap`). -/
def boxesNeeded (cap s : ℕ) : ℕ := (s + cap - 1) / cap

/-- Modelled from the spec: cluster selection inspects the first `cap`
items of each chosen box, stopping once the sample size is reached. -/
def clusterItems (itemsPerBox cap : ℕ) (boxes : List ℕ) (s : ℕ) : List ℕ :=
  (boxes.flatMap
    (fun b => (List.range (min cap itemsPerBox)).map (fun j => b * itemsPerBox + j))).take s

/-- Modelled from the spec: interval (systematic) box selection walks
box indices 0, i, 2i, ... modulo the number of boxes and collects the
first `count` distinct boxes encountered. -/
def intervalBoxes (numBoxes interval count : ℕ) : List ℕ :=
  (((List.range numBoxes).map (fun t => (t * interval) % numBoxes)).dedup).take count

/-- Modelled from the spec: dispatch of the selection strategy.  The
random draws are made explicit through `sample`, where `sample n k` is
the RNG's choice of `k` distinct indices from `[0, n)` (uniform without
replacement in the implementation). -/
def selectUnits (strategy : SelectionStrategy) (numBoxes itemsPerBox cap s : ℕ)
    (sample : ℕ → ℕ → List ℕ) : List ℕ :=
  match strategy with
  | SelectionStrategy.random => sample (numBoxes * itemsPerBox) s
  | SelectionStrategy.convenience => (perBoxCappedItems numBoxes itemsPerBox cap).take s
  | SelectionStrategy.clusterRandom =>
      clusterItems itemsPerBox cap (sample numBoxes (boxesNeeded cap s)) s
  | SelectionStrategy.clusterInterval interval =>
      clusterItems itemsPerBox cap (intervalBoxes numBoxes interval (boxesNeeded cap s)) s

/-- Per-box item lists over distinct boxes concatenate to a
duplicate-free list. -/
theorem nodup_box_items (itemsPerBox cap : ℕ) (boxes : List ℕ) (hb : boxes.Nodup) :
    (boxes.flatMap
      (fun b => (List.range (min cap itemsPerBox)).map
        (fun j => b * itemsPerBox + j))).Nodup := by
  rw [List.nodup_flatMap]
  constructor
  · intro b _
    exact (List.nodup_range _).map (fun j1 j2 h => by omega)
  · refine List.Pairwise.imp ?_ hb
    intro a b hab
    intro x hxa hxb
    simp only [List.mem_map, List.mem_range] at hxa hxb
    obtain ⟨j1, hj1, he1⟩ := hxa
    obtain ⟨j2, hj2, he2⟩ := hxb
    have hK : 0 < itemsPerBox := by omega
    have e1 : x / itemsPerBox = a := by
      rw [← he1, Nat.mul_comm a, Nat.mul_add_div hK, Nat.div_eq_of_lt (by omega)]
      omega
    have e2 : x / itemsPerBox = b := by
      rw [← he2, Nat.mul_comm b, Nat.mul_add_div hK, Nat.div_eq_of_lt (by omega)]
      omega
    exact hab (by omega)

/-- C7: after the inspection completes, the indices whose inspected flag
is set are exactly the indices produced by the configured selection
strategy (no extras, no omissions), and the selection contains no
duplicates (assuming the RNG's without-replacement sampler returns
distinct indices, which is its contract). -/
theorem inspected_bits_equal_selection
    (strategy : SelectionStrategy) (numBoxes itemsPerBox cap s : ℕ)
    (sample : ℕ → ℕ → List ℕ) (hsample : ∀ n k, (sample n k).Nodup) :
    (∀ j, markInspected (selectUnits strategy numBoxes itemsPerBox cap s sample)
        (fun _ => false) j = true
      ↔ j ∈ selectUnits strategy numBoxes itemsPerBox cap s sample)
    ∧ (selectUnits strategy numBoxes itemsPerBox cap s sample).Nodup := by
  constructor
  · intro j
    rw [markInspected_eq]
    simp
  · cases strategy with
    | random => exact hsample _ _
    | convenience =>
      exact List.Nodup.sublist (List.take_sublist s _)
        (nodup_box_items itemsPerBox cap (List.range numBoxes) (List.nodup_range _))
    | clusterRandom =>
      exact List.Nodup.sublist (List.take_sublist s _)
        (nodup_box_items itemsPerBox cap _ (hsample _ _))
    | clusterInterval interval =>
      exact List.Nodup.sublist (List.take_sublist s _)
        (nodup_box_items itemsPerBox cap _
          (List.Nodup.sublist (List.take_sublist _ _) (List.nodup_dedup _)))

/-- Witness for C7 with the convenience strategy on 2 boxes of 3 items,
cap 2, sample size 3, and a trivially duplicate-free sampler. -/
theorem inspected_bits_equal_selection_witness :
    (selectUnits SelectionStrategy.convenience 2 3 2 3
      (fun _ k => List.range k)).Nodup :=
  (inspected_bits_equal_selection SelectionStrategy.convenience 2 3 2 3
    (fun _ k => List.range k) (fun _ k => List.nodup_range k)).2

/-! ## Contamination engine: clustered-single arrangement -/

/-- Modelled from the spec: size of the contiguous circular subset the
single-parameter clustered arrangement restricts contamination to;
`v` is the clustering value (an inverse proportion), and the subset is
never smaller than the contamination target. -/
def clusterSubsetSize (numItems target : ℕ) (v : ℚ) : ℕ :=
  max target (round ((numItems : ℚ) / (1 + v))).toNat

/-- Modelled from the spec: the circular window of candidate item
indices, starting at the drawn index `s0` and wrapping around modulo the
number of items. -/
def clusterWindow (numItems target : ℕ) (v : ℚ) (s0 : ℕ) : Finset ℕ :=
  (Finset.range (clusterSubsetSize numItems target v)).image
    (fun j => (s0 + j) % numItems)

/-- Probability weight of drawing exactly the index set `s` when
selecting `target` indices uniformly without replacement from a window:
every `target`-sized subset of the window is equally likely and any
other set is impossible. -/
def uniformSubsetWeight (window : Finset ℕ) (target : ℕ) (s : Finset ℕ) : ℚ :=
  if s ⊆ window ∧ s.card = target then 1 / (window.card.choose target) else 0

/-- Modelled from the spec: distribution over contaminated index sets of
the clustered-single arrangement with clustering value `v` and drawn
window start `s0`. -/
def clusteredSingleWeight (numItems target : ℕ) (v : ℚ) (s0 : ℕ) (s : Finset ℕ) : ℚ :=
  uniformSubsetWeight (clusterWindow numItems target v s0) target s

/-- Modelled from the spec: distribution over contaminated index sets of
the random arrangement (uniform without replacement from the whole
consignment). -/
def randomArrangementWeight (numItems target : ℕ) (s : Finset ℕ) : ℚ :=
  uniformSubsetWeight (Finset.range numItems) target s

/-- C9: the clustered-single arrangement restricts contamination to a
circular window of size max(target, round(N/(1+v))) starting at the
drawn index and wrapping modulo N: an index set with nonzero weight is a
target-sized subset of the window, the window has exactly that size
whenever it fits, and with clustering value v=0 the window is the whole
consignment, making the distribution identical to the random
arrangement. -/
theorem clustered_single_window :
    (∀ (numItems target : ℕ) (v : ℚ) (s0 : ℕ) (s : Finset ℕ),
      clusteredSingleWeight numItems target v s0 s ≠ 0 →
        s ⊆ clusterWindow numItems target v s0 ∧ s.card = target)
    ∧ (∀ (numItems target : ℕ) (v : ℚ) (s0 : ℕ),
        clusterSubsetSize numItems target v ≤ numItems → 0 < numItems →
        (clusterWindow numItems target v s0).card = clusterSubsetSize numItems target v)
    ∧ (∀ (numItems target s0 : ℕ), 0 < numItems → target ≤ numItems →
        clusterWindow numItems target 0 s0 = Finset.range numItems)
    ∧ (∀ (numItems target s0 : ℕ) (s : Finset ℕ), 0 < numItems → target ≤ numItems →
        clusteredSingleWeight numItems target 0 s0 s
          = randomArrangementWeight numItems target s) := by
  have hsize0 : ∀ (numItems target : ℕ), target ≤ numItems →
      clusterSubsetSize numItems target 0 = numItems := by
    intro numItems target htar
    unfold clusterSubsetSize
    rw [show (1:ℚ) + 0 = 1 by norm_num, div_one, round_natCast, Int.toNat_natCast]
    omega
  have hwin0 : ∀ (numItems target s0 : ℕ), 0 < numItems → target ≤ numItems →
      clusterWindow numItems target 0 s0 = Finset.range numItems := by
    intro numItems target s0 hN htar
    unfold clusterWindow
    rw [hsize0 numItems target htar]
    apply Finset.ext
    intro k
    simp only [Finset.mem_image, Finset.mem_range]
    constructor
    · rintro ⟨j, hj, rfl⟩
      exact Nat.mod_lt _ hN
    · intro hk
      set r := s0 % numItems with hrdef
      have hr : r < numItems := Nat.mod_lt s0 hN
      refine ⟨(k + numItems - r) % numItems, Nat.mod_lt _ hN, ?_⟩
      have hj : (k + numItems - r) % numItems < numItems := Nat.mod_lt _ hN
      calc (s0 + (k + numItems - r) % numItems) % numItems
          = (s0 % numItems + ((k + numItems - r) % numItems) % numItems)
              % numItems := Nat.add_mod _ _ _
        _ = (r + (k + numItems - r) % numItems) % numItems := by
              rw [Nat.mod_eq_of_lt hj]
        _ = (r % numItems + (k + numItems - r) % numItems) % numItems := by
              rw [Nat.mod_eq_of_lt hr]
        _ = (r + (k + numItems - r)) % numItems := (Nat.add_mod _ _ _).symm
        _ = (k + numItems) % numItems := by congr 1; omega
        _ = k % numItems := Nat.add_mod_right k numItems
        _ = k := Nat.mod_eq_of_lt hk
  refine ⟨?_, ?_, hwin0, ?_⟩
  · intro numItems target v s0 s hne
    unfold clusteredSingleWeight uniformSubsetWeight at hne
    by_cases h : s ⊆ clusterWindow numItems target v s0 ∧ s.card = target
    · exact h
    · rw [if_neg h] at hne
      exact absurd rfl hne
  · intro numItems target v s0 hfit hN
    unfold clusterWindow
    rw [Finset.card_image_of_injOn, Finset.card_range]
    intro j1 hj1 j2 hj2 heq
    simp only [Finset.coe_range, Set.mem_Iio] at hj1 hj2
    have hmodeq : j1 ≡ j2 [MOD numItems] :=
      Nat.ModEq.add_left_cancel' s0 heq
    have h1 : j1 % numItems = j1 := Nat.mod_eq_of_lt (by omega)
    have h2 : j2 % numItems = j2 := Nat.mod_eq_of_lt (by omega)
    unfold Nat.ModEq at hmodeq
    omega
  · intro numItems target s0 s hN htar
    unfold clusteredSingleWeight randomArrangementWeight
    rw [hwin0 numItems target s0 hN htar]

/-- Witness for C9 with 6 items, target 2, clustering value 0 and window
start 5: the clustered-single distribution weight of the set {0, 1}
agrees with the random arrangement's. -/
theorem clustered_single_window_witness :
    clusteredSingleWeight 6 2 0 5 {0, 1} = randomArrangementWeight 6 2 {0, 1} :=
  clustered_single_window.2.2.2 6 2 5 {0, 1} (by norm_num) (by norm_num)
